import Mathlib

/-!
Verification of the price cache and fetch coordinator of the
cryptoTrack backend (`app/services/coingecko.py`, class `CoinGeckoClient`).

The embedding models the body of `CoinGeckoClient.get_prices` as a pure
function over an explicit cache state.  JSON response bodies are an
inductive `Json` type; the Python expressions `coin_id in data`,
`data[coin_id]` and `"usd" in data[coin_id]` appearing in the source are
modelled by `pyIn` / `pyIndex`, which reproduce Python's dynamic
semantics including the `TypeError` raised when the `in` operator or
subscripting is applied to a non-container value, and the except-clause
structure of the source is reproduced branch by branch: exceptions of
kind `httpx.HTTPStatusError` / `httpx.HTTPError` are caught inside
`get_prices`, while a JSON decoding failure or a `TypeError` in the
merge loop is not caught and escapes to the caller (`Except.error`).

Wall-clock times (`time.time()`) are modelled as integers (seconds)
passed in as parameters: `t0` for the reading in `_is_cache_valid` and
`t1` for the reading at the timestamp update after a successful
response; the code only ever compares time differences against the
60-second TTL and stores the readings, so no other arithmetic on times
occurs.  The
upstream HTTP call is modelled by an `Upstream` value: either a network
error (an `httpx.HTTPError` that is not a status error) or a response
with a status code and an optional parsed body (`none` when the body is
not valid JSON, in which case `response.json()` raises).
-/

namespace CryptoTrack

/-- Parsed JSON values, as returned by `response.json()`. Numbers are
modelled as rationals; no arithmetic is performed on them by the code. -/
inductive Json where
  | null : Json
  | bool : Bool → Json
  | num : Rat → Json
  | str : String → Json
  | arr : List Json → Json
  | obj : List (String × Json) → Json

/-- Python exceptions that can escape the `try` block of `get_prices`
without being caught by its `except` clauses. -/
inductive PyExc where
  | jsonDecodeError : PyExc
  | typeError : PyExc
  | keyError : PyExc
deriving DecidableEq

/-- Association-list lookup, modelling Python `dict` key lookup
(`d.get(k)` / guarded `d[k]`). -/
def alookup : List (String × Json) → String → Option Json
  | [], _ => none
  | (k, v) :: rest, key => if k = key then some v else alookup rest key

/-- Association-list insertion, modelling Python `d[k] = v`: replaces the
value in place when the key is present, appends otherwise (Python dicts
preserve insertion order). -/
def ainsert : List (String × Json) → String → Json → List (String × Json)
  | [], key, val => [(key, val)]
  | (k, v) :: rest, key, val =>
    if k = key then (k, val) :: rest else (k, v) :: ainsert rest key val

/-- The key list of an association list (Python `d.keys()`). -/
def keys (m : List (String × Json)) : List String := m.map Prod.fst

/-- Python's `k in d` for a string `k` and a JSON value `d`: key
membership for objects, element equality for arrays (a string compares
equal only to the same string), substring test for strings, and a
`TypeError` for `null` / booleans / numbers, exactly as in CPython. -/
def pyIn (d : Json) (k : String) : Except PyExc Bool :=
  match d with
  | .obj kvs => .ok (kvs.any fun kv => kv.1 = k)
  | .arr xs => .ok (xs.any fun j => match j with | .str s => s = k | _ => false)
  | .str s => .ok (decide (List.IsInfix k.data s.data))
  | _ => .error .typeError

/-- Python's `d[k]` for a string key `k`: object field access (with
`KeyError` when absent), `TypeError` on any non-object (list and string
subscripts must be integers). -/
def pyIndex (d : Json) (k : String) : Except PyExc Json :=
  match d with
  | .obj kvs =>
    match alookup kvs k with
    | some v => .ok v
    | none => .error .keyError
  | _ => .error .typeError

/-- Python `s.lower()` (per-character lowercasing). -/
def pyLower (s : String) : String := ⟨s.data.map Char.toLower⟩

/-- Python `s.strip()`: remove leading and trailing whitespace. -/
def pyStrip (s : String) : String :=
  ⟨((s.data.dropWhile Char.isWhitespace).reverse.dropWhile Char.isWhitespace).reverse⟩

/-- Identifier normalization from the source: `c.lower().strip()`. -/
def normalize (c : String) : String := pyStrip (pyLower c)

/-- The cache state of a `CoinGeckoClient`: `self._cache` and
`self._cache_timestamp` (initialized to `{}` and `0`). -/
structure CGState where
  cache : List (String × Json)
  cacheTimestamp : Int

/-- The initial state built by `CoinGeckoClient.__init__`. -/
def initState : CGState := ⟨[], 0⟩

/-- `CACHE_TTL = 60` seconds. -/
def CACHE_TTL : Int := 60

/-- `CoinGeckoClient._is_cache_valid`:
`(time.time() - self._cache_timestamp) < self.CACHE_TTL and bool(self._cache)`,
with `t0` the value of `time.time()`. -/
def is_cache_valid (st : CGState) (t0 : Int) : Bool :=
  decide (t0 - st.cacheTimestamp < CACHE_TTL) && !st.cache.isEmpty

/-- Outcome of the single upstream HTTP GET performed by `get_prices`:
either a response with status code and parsed body (`none` when the body
is not valid JSON, so that `response.json()` raises), or a network-level
`httpx.HTTPError`. -/
inductive Upstream where
  | resp : Nat → Option Json → Upstream
  | netError : Upstream

/-- The merge loop of `get_prices` (source lines 51-58): walks the
requested identifiers, building the `prices` dict and mutating the
cache.  Returns the result of the loop (or the first uncaught exception)
together with the cache as mutated so far — on an exception the entries
already written in earlier iterations stay written, as in Python. -/
def processCoins (data : Json) :
    List String → List (String × Json) → List (String × Json) →
    Except PyExc (List (String × Json)) × List (String × Json)
  | [], prices, cache => (.ok prices, cache)
  | cid :: rest, prices, cache =>
    match pyIn data cid with
    | .error e => (.error e, cache)
    | .ok true =>
      match pyIndex data cid with
      | .error e => (.error e, cache)
      | .ok v =>
        match pyIn v "usd" with
        | .error e => (.error e, cache)
        | .ok true =>
          match pyIndex v "usd" with
          | .error e => (.error e, cache)
          | .ok price =>
            processCoins data rest (ainsert prices cid price) (ainsert cache cid price)
        | .ok false =>
          processCoins data rest
            (ainsert prices cid ((alookup cache cid).getD (Json.num 0))) cache
    | .ok false =>
      processCoins data rest
        (ainsert prices cid ((alookup cache cid).getD (Json.num 0))) cache

/-- The fallback mapping built in the `except` handlers:
`{cid: self._cache.get(cid, 0.0) for cid in coin_ids}`. -/
def cachedFallback (st : CGState) (ids : List String) : List (String × Json) :=
  ids.map fun cid => (cid, (alookup st.cache cid).getD (Json.num 0))

/-- Handling of a successful (2xx, JSON-parseable) response (source
lines 49-61): run the merge loop; if it completes, advance the timestamp
to `t1` and return the prices; if it raises, the exception escapes with
the timestamp unchanged and the cache partially updated. -/
def refreshFromResponse (st : CGState) (t1 : Int) (data : Json) (ids : List String) :
    Except PyExc (List (String × Json)) × CGState :=
  match processCoins data ids [] st.cache with
  | (.ok prices, cache2) => (.ok prices, ⟨cache2, t1⟩)
  | (.error e, cache2) => (.error e, ⟨cache2, st.cacheTimestamp⟩)

/-- The `try`/`except` block of `get_prices` (source lines 43-72).
`raise_for_status` raises `httpx.HTTPStatusError` for every non-2xx
status; the first handler catches it and branches on `status == 429`
(both branches return the cached fallback); the second handler catches
the remaining `httpx.HTTPError`s (network errors).  A body that is not
valid JSON makes `response.json()` raise `json.JSONDecodeError`, which
matches no handler and escapes. -/
def tryFetch (st : CGState) (t1 : Int) (up : Upstream) (ids : List String) :
    Except PyExc (List (String × Json)) × CGState :=
  match up with
  | .netError => (.ok (cachedFallback st ids), st)
  | .resp status body =>
    if 200 ≤ status ∧ status ≤ 299 then
      match body with
      | none => (.error .jsonDecodeError, st)
      | some data => refreshFromResponse st t1 data ids
    else if status = 429 then
      (.ok (cachedFallback st ids), st)
    else
      (.ok (cachedFallback st ids), st)

/-- The full observable outcome of one `get_prices` call: the returned
mapping (or the escaped exception), the cache state after the call, the
number of upstream HTTP requests issued, and the `ids` query parameter
sent (when a request was issued). -/
structure GPOutcome where
  ret : Except PyExc (List (String × Json))
  state : CGState
  calls : Nat
  idsParam : Option String

/-- `CoinGeckoClient.get_prices(coin_ids)`.  `t0` is the `time.time()`
reading inside `_is_cache_valid`, `t1` the reading at the timestamp
update, `up` the outcome of the upstream HTTP call (used only when the
call is actually made). -/
def get_prices (st : CGState) (t0 t1 : Int) (up : Upstream)
    (coin_ids : List String) : GPOutcome :=
  if coin_ids.isEmpty then ⟨.ok [], st, 0, none⟩
  else
    let ids := (coin_ids.map normalize).dedup
    if is_cache_valid st t0 && ids.all fun cid => (alookup st.cache cid).isSome then
      ⟨.ok (ids.map fun cid => (cid, (alookup st.cache cid).getD Json.null)),
        st, 0, none⟩
    else
      let r := tryFetch st t1 up ids
      ⟨r.1, r.2, 1, some (String.intercalate "," ids)⟩

/-- The condition under which the merge loop writes a price for `cid`
into the cache: `coin_id in data and "usd" in data[coin_id]` evaluates
to `True` without raising. -/
def codeHasUsd (data : Json) (cid : String) : Bool :=
  match pyIn data cid with
  | .ok true =>
    match pyIndex data cid with
    | .ok v =>
      match pyIn v "usd" with
      | .ok true => true
      | _ => false
    | .error _ => false
  | _ => false

/-- The value `data[coin_id]["usd"]` that the loop stores for `cid`, when
all the guards pass and the final subscript succeeds. -/
def codePrice (data : Json) (cid : String) : Option Json :=
  match pyIn data cid with
  | .ok true =>
    match pyIndex data cid with
    | .ok v =>
      match pyIn v "usd" with
      | .ok true =>
        match pyIndex v "usd" with
        | .ok p => some p
        | .error _ => none
      | _ => none
    | .error _ => none
  | _ => none

/-- A response body of the shape documented for the upstream service: an
object keyed by identifier whose values are objects.  On such a body the
merge loop cannot raise. -/
def wellShaped : Json → Bool
  | .obj kvs => kvs.all fun kv => match kv.2 with | .obj _ => true | _ => false
  | _ => false

/-- An upstream outcome on which `get_prices` is total: a network error,
a non-2xx status, or a 2xx response whose body parses to a well-shaped
object. -/
def safeUpstream : Upstream → Bool
  | .netError => true
  | .resp status body =>
    if 200 ≤ status ∧ status ≤ 299 then
      match body with
      | some data => wellShaped data
      | none => false
    else true

/-- An upstream outcome on which the HTTP call fails: a network error or
a non-2xx status. -/
def failedUpstream : Upstream → Bool
  | .netError => true
  | .resp status _ => !decide (200 ≤ status ∧ status ≤ 299)

/-- One invocation of `get_prices` in a call sequence: the two clock
readings, the upstream outcome, and the argument list. -/
structure Call where
  t0 : Int
  t1 : Int
  up : Upstream
  ids : List String

/-- The cache state after one call. -/
def callStep (st : CGState) (c : Call) : CGState :=
  (get_prices st c.t0 c.t1 c.up c.ids).state

/-- The cache state after a sequence of calls. -/
def runCalls (st : CGState) : List Call → CGState
  | [] => st
  | c :: rest => runCalls (callStep st c) rest

/-- `c.up` never delivers a (parsed) body containing a usd price for
`cid`. -/
def noUsdFor (c : Call) (cid : String) : Bool :=
  match c.up with
  | .resp _ (some data) => !codeHasUsd data cid
  | _ => true

/-! ### Association-list lemmas -/

theorem alookup_ainsert (m : List (String × Json)) (k : String) (v : Json)
    (k' : String) :
    alookup (ainsert m k v) k' = if k = k' then some v else alookup m k' := by
  induction m with
  | nil => by_cases h : k = k' <;> simp [ainsert, alookup, h]
  | cons kv rest ih =>
    obtain ⟨k0, v0⟩ := kv
    by_cases h0 : k0 = k
    · subst h0
      by_cases h1 : k0 = k' <;> simp [ainsert, alookup, h1]
    · by_cases h1 : k0 = k'
      · subst h1
        have hkk : ¬ k = k0 := fun h => h0 h.symm
        simp [ainsert, alookup, h0, hkk]
      · simp [ainsert, alookup, h0, h1, ih]

theorem keys_cons (kv : String × Json) (rest : List (String × Json)) :
    keys (kv :: rest) = kv.1 :: keys rest := rfl

theorem mem_keys_iff_alookup_isSome (m : List (String × Json)) (k : String) :
    k ∈ keys m ↔ (alookup m k).isSome := by
  induction m with
  | nil => simp [keys, alookup]
  | cons kv rest ih =>
    obtain ⟨k0, v0⟩ := kv
    rw [keys_cons, List.mem_cons]
    by_cases h : k0 = k
    · subst h; simp [alookup]
    · have h2 : ¬ k = k0 := fun hh => h hh.symm
      simp [alookup, h, h2, ih]

theorem alookup_eq_none_iff (m : List (String × Json)) (k : String) :
    alookup m k = none ↔ k ∉ keys m := by
  rw [mem_keys_iff_alookup_isSome]
  cases h : alookup m k <;> simp [h]

theorem keys_ainsert (m : List (String × Json)) (k : String) (v : Json) :
    keys (ainsert m k v) = if k ∈ keys m then keys m else keys m ++ [k] := by
  induction m with
  | nil => simp [ainsert, keys]
  | cons kv rest ih =>
    obtain ⟨k0, v0⟩ := kv
    by_cases h : k0 = k
    · subst h; simp [ainsert, keys_cons]
    · have h2 : ¬ k = k0 := fun hh => h hh.symm
      by_cases hm : k ∈ keys rest <;>
        simp [ainsert, keys_cons, List.mem_cons, h, h2, hm, ih]

theorem keys_subset_keys_ainsert (m : List (String × Json)) (k : String)
    (v : Json) : keys m ⊆ keys (ainsert m k v) := by
  rw [keys_ainsert]
  split
  · exact fun a ha => ha
  · exact fun a ha => List.mem_append_left _ ha

theorem alookup_eq_some_mem (m : List (String × Json)) (k : String) (v : Json)
    (h : alookup m k = some v) : (k, v) ∈ m := by
  induction m with
  | nil => simp [alookup] at h
  | cons kv rest ih =>
    obtain ⟨k0, v0⟩ := kv
    by_cases h0 : k0 = k
    · subst h0
      simp [alookup] at h
      simp [h]
    · simp [alookup, h0] at h
      exact List.mem_cons_of_mem _ (ih h)

theorem alookup_map_mk (ids : List String) (f : String → Json) (k : String) :
    alookup (ids.map fun cid => (cid, f cid)) k =
      if k ∈ ids then some (f k) else none := by
  induction ids with
  | nil => simp [alookup]
  | cons i rest ih =>
    by_cases h : i = k
    · subst h; simp [alookup]
    · have h2 : ¬ k = i := fun hh => h hh.symm
      simp [alookup, h, h2, ih]

theorem keys_map_mk (ids : List String) (f : String → Json) :
    keys (ids.map fun cid => (cid, f cid)) = ids := by
  induction ids with
  | nil => simp [keys]
  | cons i rest ih => simp [keys] at ih ⊢; exact ih

/-! ### Lemmas about the merge loop -/

theorem processCoins_preserve (data : Json) (cid : String) :
    ∀ (ids : List String) (prices cache : List (String × Json)),
    (∀ id ∈ ids, id ≠ cid) →
    alookup (processCoins data ids prices cache).2 cid = alookup cache cid ∧
    (∀ m, (processCoins data ids prices cache).1 = .ok m →
      alookup m cid = alookup prices cid)
  | [], prices, cache, _ => by
    constructor
    · rfl
    · intro m hm
      simp [processCoins] at hm
      subst hm; rfl
  | i :: rest, prices, cache, h => by
    have hi : i ≠ cid := h i (List.mem_cons_self i rest)
    have hrest : ∀ id ∈ rest, id ≠ cid := fun id hid => h id (List.mem_cons_of_mem _ hid)
    cases h1 : pyIn data i with
    | error e =>
      simp [processCoins, h1]
    | ok b1 =>
      cases b1 with
      | false =>
        have ih := processCoins_preserve data cid rest
          (ainsert prices i ((alookup cache i).getD (Json.num 0))) cache hrest
        simpa [processCoins, h1, alookup_ainsert, hi] using ih
      | true =>
        cases h2 : pyIndex data i with
        | error e => simp [processCoins, h1, h2]
        | ok v =>
          cases h3 : pyIn v "usd" with
          | error e => simp [processCoins, h1, h2, h3]
          | ok b3 =>
            cases b3 with
            | false =>
              have ih := processCoins_preserve data cid rest
                (ainsert prices i ((alookup cache i).getD (Json.num 0))) cache hrest
              simpa [processCoins, h1, h2, h3, alookup_ainsert, hi] using ih
            | true =>
              cases h4 : pyIndex v "usd" with
              | error e => simp [processCoins, h1, h2, h3, h4]
              | ok price =>
                have ih := processCoins_preserve data cid rest
                  (ainsert prices i price) (ainsert cache i price) hrest
                simpa [processCoins, h1, h2, h3, h4, alookup_ainsert, hi] using ih

theorem processCoins_keys_mono (data : Json) :
    ∀ (ids : List String) (prices cache : List (String × Json)),
    keys cache ⊆ keys (processCoins data ids prices cache).2
  | [], prices, cache => fun a ha => ha
  | i :: rest, prices, cache => by
    cases h1 : pyIn data i with
    | error e => simp [processCoins, h1]
    | ok b1 =>
      cases b1 with
      | false =>
        have ih := processCoins_keys_mono data rest
          (ainsert prices i ((alookup cache i).getD (Json.num 0))) cache
        simpa [processCoins, h1] using ih
      | true =>
        cases h2 : pyIndex data i with
        | error e => simp [processCoins, h1, h2]
        | ok v =>
          cases h3 : pyIn v "usd" with
          | error e => simp [processCoins, h1, h2, h3]
          | ok b3 =>
            cases b3 with
            | false =>
              have ih := processCoins_keys_mono data rest
                (ainsert prices i ((alookup cache i).getD (Json.num 0))) cache
              simpa [processCoins, h1, h2, h3] using ih
            | true =>
              cases h4 : pyIndex v "usd" with
              | error e => simp [processCoins, h1, h2, h3, h4]
              | ok price =>
                have ih := processCoins_keys_mono data rest
                  (ainsert prices i price) (ainsert cache i price)
                have hsub := keys_subset_keys_ainsert cache i price
                simp only [processCoins, h1, h2, h3, h4]
                exact fun a ha => ih (hsub ha)

theorem processCoins_keys (data : Json) :
    ∀ (ids : List String) (prices cache : List (String × Json))
      (m : List (String × Json)),
    (processCoins data ids prices cache).1 = .ok m →
    ids.Nodup → (∀ id ∈ ids, id ∉ keys prices) →
    keys m = keys prices ++ ids
  | [], prices, cache, m, hm, _, _ => by
    simp [processCoins] at hm
    subst hm; simp
  | i :: rest, prices, cache, m, hm, hnd, hdis => by
    have hip : i ∉ keys prices := hdis i (List.mem_cons_self i rest)
    have hndr : rest.Nodup := (List.nodup_cons.mp hnd).2
    have hir : i ∉ rest := (List.nodup_cons.mp hnd).1
    have hkeys : ∀ (x : Json),
        keys (ainsert prices i x) = keys prices ++ [i] := by
      intro x; rw [keys_ainsert]; simp [hip]
    have hdis2 : ∀ (x : Json), ∀ id ∈ rest, id ∉ keys (ainsert prices i x) := by
      intro x id hid
      rw [hkeys x]
      intro hmem
      rcases List.mem_append.mp hmem with h | h
      · exact hdis id (List.mem_cons_of_mem _ hid) h
      · rcases List.mem_singleton.mp h with rfl
        exact hir hid
    cases h1 : pyIn data i with
    | error e => simp [processCoins, h1] at hm
    | ok b1 =>
      cases b1 with
      | false =>
        simp only [processCoins, h1] at hm
        have ih := processCoins_keys data rest
          (ainsert prices i ((alookup cache i).getD (Json.num 0))) cache m hm hndr
          (hdis2 _)
        rw [ih, hkeys]
        simp
      | true =>
        cases h2 : pyIndex data i with
        | error e => simp [processCoins, h1, h2] at hm
        | ok v =>
          cases h3 : pyIn v "usd" with
          | error e => simp [processCoins, h1, h2, h3] at hm
          | ok b3 =>
            cases b3 with
            | false =>
              simp only [processCoins, h1, h2, h3] at hm
              have ih := processCoins_keys data rest
                (ainsert prices i ((alookup cache i).getD (Json.num 0))) cache m hm
                hndr (hdis2 _)
              rw [ih, hkeys]
              simp
            | true =>
              cases h4 : pyIndex v "usd" with
              | error e => simp [processCoins, h1, h2, h3, h4] at hm
              | ok price =>
                simp only [processCoins, h1, h2, h3, h4] at hm
                have ih := processCoins_keys data rest
                  (ainsert prices i price) (ainsert cache i price) m hm hndr
                  (hdis2 _)
                rw [ih, hkeys]
                simp

theorem processCoins_ok_of_wellShaped (data : Json)
    (hw : wellShaped data = true) :
    ∀ (ids : List String) (prices cache : List (String × Json)),
    ∃ m, (processCoins data ids prices cache).1 = .ok m
  | [], prices, cache => ⟨prices, rfl⟩
  | i :: rest, prices, cache => by
    obtain ⟨kvs, rfl⟩ : ∃ kvs, data = Json.obj kvs := by
      cases data <;> simp [wellShaped] at hw
      exact ⟨_, rfl⟩
    cases h1 : pyIn (Json.obj kvs) i with
    | error e => simp [pyIn] at h1
    | ok b1 =>
      cases b1 with
      | false =>
        have ih := processCoins_ok_of_wellShaped (Json.obj kvs) hw rest
          (ainsert prices i ((alookup cache i).getD (Json.num 0))) cache
        simpa [processCoins, h1] using ih
      | true =>
        have hsome : (alookup kvs i).isSome := by
          simp only [pyIn, Except.ok.injEq] at h1
          rw [← mem_keys_iff_alookup_isSome]
          simp only [List.any_eq_true, decide_eq_true_eq] at h1
          obtain ⟨kv, hkv, hkeq⟩ := h1
          rw [keys, List.mem_map]
          exact ⟨kv, hkv, hkeq⟩
        obtain ⟨v, hv⟩ := Option.isSome_iff_exists.mp hsome
        have hvobj : ∃ kvs2, v = Json.obj kvs2 := by
          have hmem := alookup_eq_some_mem kvs i v hv
          simp only [wellShaped, List.all_eq_true] at hw
          have := hw _ hmem
          cases v <;> simp at this
          exact ⟨_, rfl⟩
        obtain ⟨kvs2, rfl⟩ := hvobj
        have h2 : pyIndex (Json.obj kvs) i = .ok (Json.obj kvs2) := by
          simp [pyIndex, hv]
        cases h3 : pyIn (Json.obj kvs2) "usd" with
        | error e => simp [pyIn] at h3
        | ok b3 =>
          cases b3 with
          | false =>
            have ih := processCoins_ok_of_wellShaped (Json.obj kvs) hw rest
              (ainsert prices i ((alookup cache i).getD (Json.num 0))) cache
            simpa [processCoins, h1, h2, h3] using ih
          | true =>
            have hsome2 : (alookup kvs2 "usd").isSome := by
              simp only [pyIn, Except.ok.injEq] at h3
              rw [← mem_keys_iff_alookup_isSome]
              simp only [List.any_eq_true, decide_eq_true_eq] at h3
              obtain ⟨kv, hkv, hkeq⟩ := h3
              rw [keys, List.mem_map]
              exact ⟨kv, hkv, hkeq⟩
            obtain ⟨p, hp⟩ := Option.isSome_iff_exists.mp hsome2
            have h4 : pyIndex (Json.obj kvs2) "usd" = .ok p := by
              simp [pyIndex, hp]
            have ih := processCoins_ok_of_wellShaped (Json.obj kvs) hw rest
              (ainsert prices i p) (ainsert cache i p)
            simpa [processCoins, h1, h2, h3, h4] using ih

theorem processCoins_absent (data : Json) (cid : String)
    (hc : codeHasUsd data cid = false) :
    ∀ (ids : List String) (prices cache : List (String × Json)),
    alookup cache cid = none →
    alookup (processCoins data ids prices cache).2 cid = none
  | [], prices, cache, hn => hn
  | i :: rest, prices, cache, hn => by
    by_cases hi : i = cid
    · subst hi
      cases h1 : pyIn data i with
      | error e => simpa [processCoins, h1] using hn
      | ok b1 =>
        cases b1 with
        | false =>
          have ih := processCoins_absent data i hc rest
            (ainsert prices i ((alookup cache i).getD (Json.num 0))) cache hn
          simpa [processCoins, h1] using ih
        | true =>
          cases h2 : pyIndex data i with
          | error e => simpa [processCoins, h1, h2] using hn
          | ok v =>
            cases h3 : pyIn v "usd" with
            | error e => simpa [processCoins, h1, h2, h3] using hn
            | ok b3 =>
              cases b3 with
              | false =>
                have ih := processCoins_absent data i hc rest
                  (ainsert prices i ((alookup cache i).getD (Json.num 0))) cache hn
                simpa [processCoins, h1, h2, h3] using ih
              | true =>
                exfalso
                simp [codeHasUsd, h1, h2, h3] at hc
    · cases h1 : pyIn data i with
      | error e => simpa [processCoins, h1] using hn
      | ok b1 =>
        cases b1 with
        | false =>
          have ih := processCoins_absent data cid hc rest
            (ainsert prices i ((alookup cache i).getD (Json.num 0))) cache hn
          simpa [processCoins, h1] using ih
        | true =>
          cases h2 : pyIndex data i with
          | error e => simpa [processCoins, h1, h2] using hn
          | ok v =>
            cases h3 : pyIn v "usd" with
            | error e => simpa [processCoins, h1, h2, h3] using hn
            | ok b3 =>
              cases b3 with
              | false =>
                have ih := processCoins_absent data cid hc rest
                  (ainsert prices i ((alookup cache i).getD (Json.num 0))) cache hn
                simpa [processCoins, h1, h2, h3] using ih
              | true =>
                cases h4 : pyIndex v "usd" with
                | error e => simpa [processCoins, h1, h2, h3, h4] using hn
                | ok price =>
                  have hn2 : alookup (ainsert cache i price) cid = none := by
                    rw [alookup_ainsert]
                    simp [hi, hn]
                  have ih := processCoins_absent data cid hc rest
                    (ainsert prices i price) (ainsert cache i price) hn2
                  simpa [processCoins, h1, h2, h3, h4] using ih

theorem codePrice_eq_none_of_codeHasUsd (data : Json) (cid : String)
    (hc : codeHasUsd data cid = false) : codePrice data cid = none := by
  unfold codeHasUsd at hc
  unfold codePrice
  cases h1 : pyIn data cid with
  | error e => simp [h1]
  | ok b1 =>
    cases b1 with
    | false => simp [h1]
    | true =>
      simp only [h1] at hc
      cases h2 : pyIndex data cid with
      | error e => simp [h1, h2]
      | ok v =>
        simp only [h2] at hc
        cases h3 : pyIn v "usd" with
        | error e => simp [h1, h2, h3]
        | ok b3 =>
          cases b3 with
          | false => simp [h1, h2, h3]
          | true => simp [h3] at hc

theorem processCoins_value (data : Json) (cid : String) :
    ∀ (ids : List String) (prices cache m : List (String × Json)),
    (processCoins data ids prices cache).1 = .ok m →
    ids.Nodup → cid ∈ ids →
    (∀ p, codePrice data cid = some p →
        alookup m cid = some p ∧
        alookup (processCoins data ids prices cache).2 cid = some p) ∧
    (codePrice data cid = none →
        alookup m cid = some ((alookup cache cid).getD (Json.num 0)) ∧
        alookup (processCoins data ids prices cache).2 cid = alookup cache cid)
  | [], _, _, _, _, _, hmem => absurd hmem (List.not_mem_nil cid)
  | i :: rest, prices, cache, m, hm, hnd, hmem => by
    have hndr : rest.Nodup := (List.nodup_cons.mp hnd).2
    have hir : i ∉ rest := (List.nodup_cons.mp hnd).1
    by_cases hic : i = cid
    · subst hic
      have hrest : ∀ id ∈ rest, id ≠ i := fun id hid heq => hir (heq ▸ hid)
      cases h1 : pyIn data i with
      | error e => simp [processCoins, h1] at hm
      | ok b1 =>
        cases b1 with
        | false =>
          have hcp : codePrice data i = none := by simp [codePrice, h1]
          simp only [processCoins, h1] at hm ⊢
          have hpres := processCoins_preserve data i rest
            (ainsert prices i ((alookup cache i).getD (Json.num 0))) cache hrest
          constructor
          · intro p hp; rw [hcp] at hp; simp at hp
          · intro _
            refine ⟨?_, hpres.1⟩
            rw [hpres.2 m hm, alookup_ainsert]
            simp
        | true =>
          cases h2 : pyIndex data i with
          | error e => simp [processCoins, h1, h2] at hm
          | ok v =>
            cases h3 : pyIn v "usd" with
            | error e => simp [processCoins, h1, h2, h3] at hm
            | ok b3 =>
              cases b3 with
              | false =>
                have hcp : codePrice data i = none := by
                  simp [codePrice, h1, h2, h3]
                simp only [processCoins, h1, h2, h3] at hm ⊢
                have hpres := processCoins_preserve data i rest
                  (ainsert prices i ((alookup cache i).getD (Json.num 0))) cache hrest
                constructor
                · intro p hp; rw [hcp] at hp; simp at hp
                · intro _
                  refine ⟨?_, hpres.1⟩
                  rw [hpres.2 m hm, alookup_ainsert]
                  simp
              | true =>
                cases h4 : pyIndex v "usd" with
                | error e => simp [processCoins, h1, h2, h3, h4] at hm
                | ok p0 =>
                  have hcp : codePrice data i = some p0 := by
                    simp [codePrice, h1, h2, h3, h4]
                  simp only [processCoins, h1, h2, h3, h4] at hm ⊢
                  have hpres := processCoins_preserve data i rest
                    (ainsert prices i p0) (ainsert cache i p0) hrest
                  constructor
                  · intro p hp
                    rw [hcp] at hp
                    obtain rfl : p0 = p := by simpa using hp
                    constructor
                    · rw [hpres.2 m hm, alookup_ainsert]; simp
                    · rw [hpres.1, alookup_ainsert]; simp
                  · intro hnone; rw [hcp] at hnone; simp at hnone
    · have hmem2 : cid ∈ rest := by
        rcases List.mem_cons.mp hmem with h | h
        · exact absurd h.symm hic
        · exact h
      cases h1 : pyIn data i with
      | error e => simp [processCoins, h1] at hm
      | ok b1 =>
        cases b1 with
        | false =>
          simp only [processCoins, h1] at hm ⊢
          exact processCoins_value data cid rest _ cache m hm hndr hmem2
        | true =>
          cases h2 : pyIndex data i with
          | error e => simp [processCoins, h1, h2] at hm
          | ok v =>
            cases h3 : pyIn v "usd" with
            | error e => simp [processCoins, h1, h2, h3] at hm
            | ok b3 =>
              cases b3 with
              | false =>
                simp only [processCoins, h1, h2, h3] at hm ⊢
                exact processCoins_value data cid rest _ cache m hm hndr hmem2
              | true =>
                cases h4 : pyIndex v "usd" with
                | error e => simp [processCoins, h1, h2, h3, h4] at hm
                | ok p0 =>
                  simp only [processCoins, h1, h2, h3, h4] at hm ⊢
                  have ih := processCoins_value data cid rest
                    (ainsert prices i p0) (ainsert cache i p0) m hm hndr hmem2
                  have hca : alookup (ainsert cache i p0) cid = alookup cache cid := by
                    rw [alookup_ainsert]; simp [hic]
                  rw [hca] at ih
                  exact ih

/-! ### Unfolding lemmas for one call -/

theorem get_prices_nil (st : CGState) (t0 t1 : Int) (up : Upstream) :
    get_prices st t0 t1 up [] = ⟨.ok [], st, 0, none⟩ := rfl

theorem get_prices_fast (st : CGState) (t0 t1 : Int) (up : Upstream)
    (coin_ids : List String) (hne : coin_ids ≠ [])
    (hv : (is_cache_valid st t0 &&
      ((coin_ids.map normalize).dedup.all fun cid =>
        (alookup st.cache cid).isSome)) = true) :
    get_prices st t0 t1 up coin_ids =
      ⟨.ok ((coin_ids.map normalize).dedup.map fun cid =>
          (cid, (alookup st.cache cid).getD Json.null)), st, 0, none⟩ := by
  cases coin_ids with
  | nil => exact absurd rfl hne
  | cons c cs =>
    simp only [get_prices, List.isEmpty_cons, hv]
    rfl

theorem get_prices_fetch (st : CGState) (t0 t1 : Int) (up : Upstream)
    (coin_ids : List String) (hne : coin_ids ≠ [])
    (hv : (is_cache_valid st t0 &&
      ((coin_ids.map normalize).dedup.all fun cid =>
        (alookup st.cache cid).isSome)) = false) :
    get_prices st t0 t1 up coin_ids =
      ⟨(tryFetch st t1 up ((coin_ids.map normalize).dedup)).1,
       (tryFetch st t1 up ((coin_ids.map normalize).dedup)).2, 1,
       some (String.intercalate "," ((coin_ids.map normalize).dedup))⟩ := by
  cases coin_ids with
  | nil => exact absurd rfl hne
  | cons c cs =>
    simp only [get_prices, List.isEmpty_cons, hv]
    rfl

theorem tryFetch_failed (st : CGState) (t1 : Int) (up : Upstream)
    (ids : List String) (hf : failedUpstream up = true) :
    tryFetch st t1 up ids = (.ok (cachedFallback st ids), st) := by
  cases up with
  | netError => rfl
  | resp status body =>
    simp only [failedUpstream, Bool.not_eq_true'] at hf
    have hns : ¬ (200 ≤ status ∧ status ≤ 299) := by
      simpa using hf
    simp [tryFetch, hns]

theorem refreshFromResponse_state (st : CGState) (t1 : Int) (data : Json)
    (ids : List String) :
    keys st.cache ⊆ keys (refreshFromResponse st t1 data ids).2.cache ∧
    ((refreshFromResponse st t1 data ids).2.cacheTimestamp = t1 ∨
     (refreshFromResponse st t1 data ids).2.cacheTimestamp = st.cacheTimestamp) := by
  unfold refreshFromResponse
  have hmono := processCoins_keys_mono data ids [] st.cache
  cases hpc : processCoins data ids [] st.cache with
  | mk r cache2 =>
    rw [hpc] at hmono
    cases r with
    | ok prices => exact ⟨hmono, Or.inl rfl⟩
    | error e => exact ⟨hmono, Or.inr rfl⟩

theorem tryFetch_state_cases (st : CGState) (t1 : Int) (up : Upstream)
    (ids : List String) :
    (tryFetch st t1 up ids).2 = st ∨
    ∃ status data, up = .resp status (some data) ∧
      200 ≤ status ∧ status ≤ 299 ∧
      keys st.cache ⊆ keys (tryFetch st t1 up ids).2.cache ∧
      ((tryFetch st t1 up ids).2.cacheTimestamp = t1 ∨
       (tryFetch st t1 up ids).2.cacheTimestamp = st.cacheTimestamp) := by
  cases up with
  | netError => exact Or.inl rfl
  | resp status body =>
    by_cases h2 : 200 ≤ status ∧ status ≤ 299
    · cases body with
      | none => left; simp [tryFetch, h2]
      | some data =>
        right
        refine ⟨status, data, rfl, h2.1, h2.2, ?_⟩
        have := refreshFromResponse_state st t1 data ids
        simpa [tryFetch, h2] using this
    · left; simp [tryFetch, h2]

theorem get_prices_state_cases (st : CGState) (t0 t1 : Int) (up : Upstream)
    (coin_ids : List String) :
    (get_prices st t0 t1 up coin_ids).state = st ∨
    ∃ status data, up = .resp status (some data) ∧
      200 ≤ status ∧ status ≤ 299 ∧
      keys st.cache ⊆ keys (get_prices st t0 t1 up coin_ids).state.cache ∧
      ((get_prices st t0 t1 up coin_ids).state.cacheTimestamp = t1 ∨
       (get_prices st t0 t1 up coin_ids).state.cacheTimestamp =
         st.cacheTimestamp) := by
  cases hc : coin_ids with
  | nil => left; rw [get_prices_nil]
  | cons c cs =>
    by_cases hv : (is_cache_valid st t0 &&
        (((c :: cs).map normalize).dedup.all fun cid =>
          (alookup st.cache cid).isSome)) = true
    · left
      rw [get_prices_fast st t0 t1 up (c :: cs) (by simp) hv]
    · rw [Bool.not_eq_true] at hv
      rw [get_prices_fetch st t0 t1 up (c :: cs) (by simp) hv]
      exact tryFetch_state_cases st t1 up (((c :: cs).map normalize).dedup)

theorem get_prices_cache_absent (st : CGState) (t0 t1 : Int) (up : Upstream)
    (coin_ids : List String) (cid : String)
    (hn : alookup st.cache cid = none)
    (hu : ∀ status data, up = .resp status (some data) →
      codeHasUsd data cid = false) :
    alookup (get_prices st t0 t1 up coin_ids).state.cache cid = none := by
  cases hc : coin_ids with
  | nil => rw [get_prices_nil]; exact hn
  | cons c cs =>
    by_cases hv : (is_cache_valid st t0 &&
        (((c :: cs).map normalize).dedup.all fun cid =>
          (alookup st.cache cid).isSome)) = true
    · rw [get_prices_fast st t0 t1 up (c :: cs) (by simp) hv]
      exact hn
    · rw [Bool.not_eq_true] at hv
      rw [get_prices_fetch st t0 t1 up (c :: cs) (by simp) hv]
      cases up with
      | netError => exact hn
      | resp status body =>
        by_cases h2 : 200 ≤ status ∧ status ≤ 299
        · cases body with
          | none => simpa [tryFetch, h2] using hn
          | some data =>
            have habs := processCoins_absent data cid (hu status data rfl)
              (((c :: cs).map normalize).dedup) [] st.cache hn
            simp only [tryFetch, h2, if_pos, refreshFromResponse]
            cases hpc : processCoins data (((c :: cs).map normalize).dedup) [] st.cache with
            | mk r cache2 =>
              rw [hpc] at habs
              cases r with
              | ok prices => simpa using habs
              | error e => simpa using habs
        · simpa [tryFetch, h2] using hn

/-! ### Lemmas about call sequences -/

theorem callStep_keys_mono (st : CGState) (c : Call) :
    keys st.cache ⊆ keys (callStep st c).cache := by
  rcases get_prices_state_cases st c.t0 c.t1 c.up c.ids with h | ⟨_, _, _, _, _, hk, _⟩
  · show keys st.cache ⊆ keys (get_prices st c.t0 c.t1 c.up c.ids).state.cache
    rw [h]
    exact fun a ha => ha
  · exact hk

theorem callStep_ts_cases (st : CGState) (c : Call) :
    (callStep st c).cacheTimestamp = st.cacheTimestamp ∨
    (callStep st c).cacheTimestamp = c.t1 := by
  rcases get_prices_state_cases st c.t0 c.t1 c.up c.ids with h | ⟨_, _, _, _, _, _, ht⟩
  · left
    show (get_prices st c.t0 c.t1 c.up c.ids).state.cacheTimestamp = st.cacheTimestamp
    rw [h]
  · rcases ht with h2 | h2
    · right; exact h2
    · left; exact h2

theorem callStep_success_of_ne (st : CGState) (c : Call)
    (h : callStep st c ≠ st) :
    ∃ status data, c.up = .resp status (some data) ∧
      200 ≤ status ∧ status ≤ 299 := by
  rcases get_prices_state_cases st c.t0 c.t1 c.up c.ids with h1 | ⟨s, d, he, h2a, h2b, _, _⟩
  · exact absurd h1 h
  · exact ⟨s, d, he, h2a, h2b⟩

theorem chain_le_of_le {y x : Int} {l : List Int} (hyx : y ≤ x)
    (h : List.Chain (· ≤ ·) x l) : List.Chain (· ≤ ·) y l := by
  cases l with
  | nil => exact List.Chain.nil
  | cons b l2 =>
    rw [List.chain_cons] at h ⊢
    exact ⟨le_trans hyx h.1, h.2⟩

theorem runCalls_keys_mono :
    ∀ (steps : List Call) (st : CGState),
    keys st.cache ⊆ keys (runCalls st steps).cache
  | [], _ => fun _ ha => ha
  | c :: rest, st => fun _ ha =>
    runCalls_keys_mono rest (callStep st c) (callStep_keys_mono st c ha)

theorem runCalls_ts_mono :
    ∀ (steps : List Call) (st : CGState),
    List.Chain (· ≤ ·) st.cacheTimestamp (steps.map Call.t1) →
    st.cacheTimestamp ≤ (runCalls st steps).cacheTimestamp
  | [], st, _ => le_refl _
  | c :: rest, st, h => by
    rw [List.map_cons, List.chain_cons] at h
    have hle : st.cacheTimestamp ≤ (callStep st c).cacheTimestamp := by
      rcases callStep_ts_cases st c with h2 | h2
      · rw [h2]
      · rw [h2]; exact h.1
    have hchain : List.Chain (· ≤ ·) (callStep st c).cacheTimestamp
        (rest.map Call.t1) := by
      apply chain_le_of_le _ h.2
      rcases callStep_ts_cases st c with h2 | h2
      · rw [h2]; exact h.1
      · rw [h2]
    exact le_trans hle (runCalls_ts_mono rest (callStep st c) hchain)

theorem runCalls_absent (cid : String) :
    ∀ (steps : List Call) (st : CGState),
    alookup st.cache cid = none →
    (∀ c ∈ steps, noUsdFor c cid = true) →
    alookup (runCalls st steps).cache cid = none
  | [], _, hn, _ => hn
  | c :: rest, st, hn, hu => by
    have h1 : noUsdFor c cid = true := hu c (List.mem_cons_self c rest)
    have hstep : alookup (callStep st c).cache cid = none := by
      apply get_prices_cache_absent _ _ _ _ _ _ hn
      intro status data hup
      unfold noUsdFor at h1
      rw [hup] at h1
      simpa using h1
    exact runCalls_absent cid rest (callStep st c) hstep
      (fun c2 hc2 => hu c2 (List.mem_cons_of_mem _ hc2))

/-! ### Claim theorems -/

/-- Claim C7: for the empty input collection, `get_prices` returns an empty
mapping immediately, performing no upstream call (`calls = 0`, no ids
parameter sent) and leaving the cache state unchanged. -/
theorem claim_c7_empty_input (st : CGState) (t0 t1 : Int) (up : Upstream) :
    get_prices st t0 t1 up [] = ⟨.ok [], st, 0, none⟩ := rfl

/-- Claim C4: (a) if the cache is fresh (elapsed time below the 60-second
TTL and cache non-empty) and every requested normalized identifier is
cached, `get_prices` returns exactly the cached entries for the requested
identifiers, makes no upstream call, and does not mutate the state;
(b) conversely, when 60 seconds or more have elapsed the fast path does
not apply and an upstream call is made. -/
theorem claim_c4_fast_path (st : CGState) (t0 t1 : Int) (up : Upstream)
    (coin_ids : List String) :
    (coin_ids ≠ [] →
      is_cache_valid st t0 = true →
      (∀ cid ∈ (coin_ids.map normalize).dedup, (alookup st.cache cid).isSome) →
      ∃ m, (get_prices st t0 t1 up coin_ids).ret = .ok m ∧
        keys m = (coin_ids.map normalize).dedup ∧
        (∀ cid ∈ (coin_ids.map normalize).dedup,
          alookup m cid = alookup st.cache cid) ∧
        (get_prices st t0 t1 up coin_ids).state = st ∧
        (get_prices st t0 t1 up coin_ids).calls = 0) ∧
    (coin_ids ≠ [] → CACHE_TTL ≤ t0 - st.cacheTimestamp →
      (get_prices st t0 t1 up coin_ids).calls = 1) := by
  constructor
  · intro hne hvalid hall
    have hallb : ((coin_ids.map normalize).dedup.all fun cid =>
        (alookup st.cache cid).isSome) = true := by
      rw [List.all_eq_true]
      intro cid hcid
      exact hall cid hcid
    have hcond : (is_cache_valid st t0 &&
        ((coin_ids.map normalize).dedup.all fun cid =>
          (alookup st.cache cid).isSome)) = true := by
      rw [hvalid, hallb]
      rfl
    rw [get_prices_fast st t0 t1 up coin_ids hne hcond]
    refine ⟨_, rfl, keys_map_mk _ _, ?_, rfl, rfl⟩
    intro cid hcid
    rw [alookup_map_mk]
    simp only [hcid, if_pos]
    obtain ⟨v, hv⟩ := Option.isSome_iff_exists.mp (hall cid hcid)
    rw [hv]
    rfl
  · intro hne hstale
    have hvalid : is_cache_valid st t0 = false := by
      unfold is_cache_valid
      have hnl : ¬ (t0 - st.cacheTimestamp < CACHE_TTL) := not_lt.mpr hstale
      simp [hnl]
    have hcond : (is_cache_valid st t0 &&
        ((coin_ids.map normalize).dedup.all fun cid =>
          (alookup st.cache cid).isSome)) = false := by
      rw [hvalid]
      rfl
    rw [get_prices_fetch st t0 t1 up coin_ids hne hcond]

/-- Witness for C4 at a concrete state: a fresh, fully-cached request makes
no upstream call; the same request 60 seconds after the last refresh
makes one. -/
theorem claim_c4_fast_path_witness :
    (get_prices ⟨[("bitcoin", Json.num 7)], 0⟩ 30 30 .netError
      ["bitcoin"]).calls = 0 ∧
    (get_prices ⟨[("bitcoin", Json.num 7)], 0⟩ 60 60 .netError
      ["bitcoin"]).calls = 1 := by
  constructor
  · obtain ⟨m, _, _, _, _, hcalls⟩ :=
      (claim_c4_fast_path ⟨[("bitcoin", Json.num 7)], 0⟩ 30 30 .netError
        ["bitcoin"]).1 (by decide) (by decide) (by decide)
    exact hcalls
  · exact (claim_c4_fast_path ⟨[("bitcoin", Json.num 7)], 0⟩ 60 60 .netError
      ["bitcoin"]).2 (by decide) (by decide)

/-- Claim C6: each `get_prices` call performs at most one upstream attempt,
and whenever the fast path does not apply (non-empty input) it performs
exactly one batch request whose ids parameter comma-joins the entire
normalized deduplicated requested set. -/
theorem claim_c6_single_batch (st : CGState) (t0 t1 : Int) (up : Upstream)
    (coin_ids : List String) :
    (get_prices st t0 t1 up coin_ids).calls ≤ 1 ∧
    (coin_ids ≠ [] →
      (is_cache_valid st t0 &&
        ((coin_ids.map normalize).dedup.all fun cid =>
          (alookup st.cache cid).isSome)) = false →
      (get_prices st t0 t1 up coin_ids).calls = 1 ∧
      (get_prices st t0 t1 up coin_ids).idsParam =
        some (String.intercalate "," ((coin_ids.map normalize).dedup))) := by
  constructor
  · cases hc : coin_ids with
    | nil => rw [get_prices_nil]; exact Nat.zero_le 1
    | cons c cs =>
      by_cases hv : (is_cache_valid st t0 &&
          (((c :: cs).map normalize).dedup.all fun cid =>
            (alookup st.cache cid).isSome)) = true
      · rw [get_prices_fast st t0 t1 up _ (by simp) hv]
        exact Nat.zero_le 1
      · rw [Bool.not_eq_true] at hv
        rw [get_prices_fetch st t0 t1 up _ (by simp) hv]
  · intro hne hv
    rw [get_prices_fetch st t0 t1 up coin_ids hne hv]
    exact ⟨rfl, rfl⟩

/-- Witness for C6: a cold-cache request for two raw identifiers makes one
batch call with both normalized identifiers joined by a comma. -/
theorem claim_c6_single_batch_witness :
    (get_prices initState 100 100 .netError ["Ethereum", "bitcoin "]).calls
        = 1 ∧
    (get_prices initState 100 100 .netError ["Ethereum", "bitcoin "]).idsParam
        = some "ethereum,bitcoin" := by
  have h := (claim_c6_single_batch initState 100 100 .netError
    ["Ethereum", "bitcoin "]).2 (by decide) (by decide)
  refine ⟨h.1, ?_⟩
  rw [h.2]
  rfl

/-- Claim C3: when the upstream call is made and fails (HTTP 429, any
other non-2xx status, or a network error), `get_prices` returns the
mapping built entirely from existing cache entries (0.0 for identifiers
never cached), leaves the state (entries and timestamp) unchanged, and
every failing upstream outcome produces the same returned value and
state — the rate-limit/other-failure distinction does not affect them. -/
theorem claim_c3_failure_fallback (st : CGState) (t0 t1 : Int)
    (coin_ids : List String) (up : Upstream)
    (hne : coin_ids ≠ [])
    (hnf : (is_cache_valid st t0 &&
      ((coin_ids.map normalize).dedup.all fun cid =>
        (alookup st.cache cid).isSome)) = false)
    (hf : failedUpstream up = true) :
    (get_prices st t0 t1 up coin_ids).ret =
      .ok (cachedFallback st ((coin_ids.map normalize).dedup)) ∧
    (∀ cid ∈ (coin_ids.map normalize).dedup,
      alookup (cachedFallback st ((coin_ids.map normalize).dedup)) cid =
        some ((alookup st.cache cid).getD (Json.num 0))) ∧
    (get_prices st t0 t1 up coin_ids).state = st ∧
    (∀ up2, failedUpstream up2 = true →
      (get_prices st t0 t1 up2 coin_ids).ret =
        (get_prices st t0 t1 up coin_ids).ret ∧
      (get_prices st t0 t1 up2 coin_ids).state =
        (get_prices st t0 t1 up coin_ids).state) := by
  have key : ∀ u, failedUpstream u = true →
      get_prices st t0 t1 u coin_ids =
        ⟨.ok (cachedFallback st ((coin_ids.map normalize).dedup)), st, 1,
         some (String.intercalate "," ((coin_ids.map normalize).dedup))⟩ := by
    intro u hu
    rw [get_prices_fetch st t0 t1 u coin_ids hne hnf,
        tryFetch_failed st t1 u _ hu]
  have h1 := key up hf
  refine ⟨by rw [h1], ?_, by rw [h1], ?_⟩
  · intro cid hcid
    unfold cachedFallback
    rw [alookup_map_mk]
    simp [hcid]
  · intro up2 hf2
    rw [key up2 hf2, h1]
    exact ⟨rfl, rfl⟩

/-- Witness for C3, the spec's own example: bitcoin cached at 50000,
ethereum never cached, upstream fails with a network error; the result is
bitcoin ↦ 50000, ethereum ↦ 0.0, and the state is untouched. -/
theorem claim_c3_failure_fallback_witness :
    (get_prices ⟨[("bitcoin", Json.num 50000)], 0⟩ 100 100 .netError
        ["bitcoin", "ethereum"]).ret =
      .ok [("bitcoin", Json.num 50000), ("ethereum", Json.num 0)] ∧
    (get_prices ⟨[("bitcoin", Json.num 50000)], 0⟩ 100 100 .netError
        ["bitcoin", "ethereum"]).state =
      ⟨[("bitcoin", Json.num 50000)], 0⟩ := by
  have h := claim_c3_failure_fallback ⟨[("bitcoin", Json.num 50000)], 0⟩
    100 100 ["bitcoin", "ethereum"] .netError (by decide) (by decide)
    (by decide)
  refine ⟨?_, h.2.2.1⟩
  rw [h.1]
  rfl

/-- Claim C5: for every non-empty input list, whatever the upstream
outcome, whenever `get_prices` returns a mapping its key list is exactly
the deduplicated list of trimmed lowercased input identifiers: no extra
keys, no missing keys, no duplicate keys; raw strings normalizing to the
same identifier share a single result key. -/
theorem claim_c5_key_set (st : CGState) (t0 t1 : Int) (up : Upstream)
    (coin_ids : List String) (m : List (String × Json))
    (hne : coin_ids ≠ [])
    (hm : (get_prices st t0 t1 up coin_ids).ret = .ok m) :
    keys m = (coin_ids.map normalize).dedup ∧
    (keys m).Nodup ∧
    (∀ k, k ∈ keys m ↔ ∃ c ∈ coin_ids, normalize c = k) := by
  have hkeys : keys m = (coin_ids.map normalize).dedup := by
    by_cases hv : (is_cache_valid st t0 &&
        ((coin_ids.map normalize).dedup.all fun cid =>
          (alookup st.cache cid).isSome)) = true
    · rw [get_prices_fast st t0 t1 up coin_ids hne hv] at hm
      simp only [Except.ok.injEq] at hm
      rw [← hm]
      exact keys_map_mk _ _
    · rw [Bool.not_eq_true] at hv
      rw [get_prices_fetch st t0 t1 up coin_ids hne hv] at hm
      cases up with
      | netError =>
        simp only [tryFetch, Except.ok.injEq] at hm
        rw [← hm]
        unfold cachedFallback
        exact keys_map_mk _ _
      | resp status body =>
        by_cases h2 : 200 ≤ status ∧ status ≤ 299
        · cases body with
          | none => simp [tryFetch, h2] at hm
          | some data =>
            simp only [tryFetch, h2, true_and, if_true] at hm
            unfold refreshFromResponse at hm
            cases hpc : processCoins data ((coin_ids.map normalize).dedup)
                [] st.cache with
            | mk r cache2 =>
              rw [hpc] at hm
              cases r with
              | error e => simp at hm
              | ok prices =>
                simp only [Except.ok.injEq] at hm
                have hk := processCoins_keys data
                  ((coin_ids.map normalize).dedup) [] st.cache prices
                  (by rw [hpc]) (List.nodup_dedup _)
                  (fun id _ hmem => List.not_mem_nil id hmem)
                rw [← hm]
                simpa [keys] using hk
        · have hfail : failedUpstream (Upstream.resp status body) = true := by
            simp [failedUpstream, h2]
          rw [tryFetch_failed st t1 _ _ hfail] at hm
          simp only [Except.ok.injEq] at hm
          rw [← hm]
          unfold cachedFallback
          exact keys_map_mk _ _
  refine ⟨hkeys, ?_, ?_⟩
  · rw [hkeys]
    exact List.nodup_dedup _
  · intro k
    rw [hkeys, List.mem_dedup, List.mem_map]

/-- Witness for C5: two raw identifiers differing by case and whitespace
collapse to the single result key "bitcoin". -/
theorem claim_c5_key_set_witness :
    keys [("bitcoin", Json.num 0)] =
      ([" Bitcoin ", "bitcoin"].map normalize).dedup ∧
    (keys [("bitcoin", Json.num 0)]).Nodup := by
  have h := claim_c5_key_set initState 100 100 .netError
    [" Bitcoin ", "bitcoin"] [("bitcoin", Json.num 0)] (by decide) rfl
  exact ⟨h.1, h.2.1⟩

/-- Claim C8: across any sequence of calls the cache only grows — a single
call never removes a cached key; the timestamp is either untouched or set
to that call's clock reading; any state change at all requires a 2xx
response with a parseable body; and along any chronologically ordered
call sequence the key set is non-decreasing and the timestamp is
non-decreasing, in particular from the empty initial state. -/
theorem claim_c8_monotonic_growth :
    (∀ (st : CGState) (c : Call),
      keys st.cache ⊆ keys (callStep st c).cache) ∧
    (∀ (st : CGState) (c : Call),
      (callStep st c).cacheTimestamp = st.cacheTimestamp ∨
      (callStep st c).cacheTimestamp = c.t1) ∧
    (∀ (st : CGState) (c : Call), callStep st c ≠ st →
      ∃ status data, c.up = .resp status (some data) ∧
        200 ≤ status ∧ status ≤ 299) ∧
    (∀ steps : List Call,
      keys initState.cache ⊆ keys (runCalls initState steps).cache) ∧
    (∀ (st : CGState) (steps : List Call),
      List.Chain (· ≤ ·) st.cacheTimestamp (steps.map Call.t1) →
      keys st.cache ⊆ keys (runCalls st steps).cache ∧
      st.cacheTimestamp ≤ (runCalls st steps).cacheTimestamp) :=
  ⟨callStep_keys_mono, callStep_ts_cases, callStep_success_of_ne,
   fun steps => runCalls_keys_mono steps initState,
   fun st steps h => ⟨runCalls_keys_mono steps st,
     runCalls_ts_mono steps st h⟩⟩

/-- Witness for C8: one successful refresh followed by a failed call,
with chronological clock readings, keeps the key set growing and the
timestamp non-decreasing from the initial state. -/
theorem claim_c8_monotonic_growth_witness :
    keys (⟨[("bitcoin", Json.num 5)], 0⟩ : CGState).cache ⊆
      keys (callStep ⟨[("bitcoin", Json.num 5)], 0⟩
        ⟨100, 100, .netError, ["ethereum"]⟩).cache ∧
    (0 : Int) ≤ (runCalls initState
      [⟨5, 5, .resp 200 (some (.obj [("bitcoin", .obj [("usd", .num 3)])])),
         ["bitcoin"]⟩,
       ⟨10, 10, .netError, ["bitcoin"]⟩]).cacheTimestamp := by
  constructor
  · exact claim_c8_monotonic_growth.1 _ _
  · have h := claim_c8_monotonic_growth.2.2.2.2 initState
      [⟨5, 5, .resp 200 (some (.obj [("bitcoin", .obj [("usd", .num 3)])])),
         ["bitcoin"]⟩,
       ⟨10, 10, .netError, ["bitcoin"]⟩]
      (List.Chain.cons (by decide) (List.Chain.cons (by decide) List.Chain.nil))
    exact h.2

/-- Claim C10: only prices delivered by a successful upstream response are
ever written into the cache: a call whose upstream outcome carries no usd
entry for an identifier leaves that identifier absent (never caching the
0.0 default or the stale fallback), across whole call sequences as well;
and a requested identifier absent from the cache always defeats the fast
path, forcing an upstream call. -/
theorem claim_c10_no_default_writes :
    (∀ (st : CGState) (c : Call) (cid : String),
      alookup st.cache cid = none → noUsdFor c cid = true →
      alookup (callStep st c).cache cid = none) ∧
    (∀ (st : CGState) (steps : List Call) (cid : String),
      alookup st.cache cid = none →
      (∀ c ∈ steps, noUsdFor c cid = true) →
      alookup (runCalls st steps).cache cid = none) ∧
    (∀ (st : CGState) (t0 t1 : Int) (up : Upstream)
       (coin_ids : List String) (cid : String),
      cid ∈ (coin_ids.map normalize).dedup →
      alookup st.cache cid = none →
      (get_prices st t0 t1 up coin_ids).calls = 1) := by
  refine ⟨?_, ?_, ?_⟩
  · intro st c cid hn hu
    apply get_prices_cache_absent _ _ _ _ _ _ hn
    intro status data hup
    unfold noUsdFor at hu
    rw [hup] at hu
    simpa using hu
  · intro st steps cid hn hu
    exact runCalls_absent cid steps st hn hu
  · intro st t0 t1 up coin_ids cid hcid hn
    have hne : coin_ids ≠ [] := by
      intro h
      subst h
      simp at hcid
    have hall : ((coin_ids.map normalize).dedup.all fun c2 =>
        (alookup st.cache c2).isSome) = false := by
      rw [List.all_eq_false]
      exact ⟨cid, hcid, by simp [hn]⟩
    have hcond : (is_cache_valid st t0 &&
        ((coin_ids.map normalize).dedup.all fun c2 =>
          (alookup st.cache c2).isSome)) = false := by
      rw [hall, Bool.and_false]
    rw [get_prices_fetch st t0 t1 up coin_ids hne hcond]

/-- Witness for C10: a successful response that prices bitcoin but not
doge leaves doge uncached, and a later request including doge still makes
an upstream call. -/
theorem claim_c10_no_default_writes_witness :
    alookup (runCalls initState
      [⟨0, 5, .resp 200 (some (.obj [("bitcoin", .obj [("usd", .num 3)])])),
         ["bitcoin", "doge"]⟩]).cache "doge" = none ∧
    (get_prices initState 0 0 .netError ["doge"]).calls = 1 := by
  constructor
  · exact claim_c10_no_default_writes.2.1 initState
      [⟨0, 5, .resp 200 (some (.obj [("bitcoin", .obj [("usd", .num 3)])])),
         ["bitcoin", "doge"]⟩] "doge" rfl (by decide)
  · exact claim_c10_no_default_writes.2.2 initState 0 0 .netError ["doge"]
      "doge" (by decide) rfl

theorem tryFetch_success (st : CGState) (t1 : Int) (status : Nat)
    (data : Json) (ids : List String)
    (h2 : 200 ≤ status ∧ status ≤ 299) :
    tryFetch st t1 (.resp status (some data)) ids =
      refreshFromResponse st t1 data ids := by
  simp only [tryFetch]
  rw [if_pos h2]

theorem refreshFromResponse_ok (st : CGState) (t1 : Int) (data : Json)
    (ids : List String) (prices cache2 : List (String × Json))
    (hpc : processCoins data ids [] st.cache = (.ok prices, cache2)) :
    refreshFromResponse st t1 data ids = (.ok prices, ⟨cache2, t1⟩) := by
  unfold refreshFromResponse
  rw [hpc]

theorem refreshFromResponse_err (st : CGState) (t1 : Int) (data : Json)
    (ids : List String) (e : PyExc) (cache2 : List (String × Json))
    (hpc : processCoins data ids [] st.cache = (.error e, cache2)) :
    refreshFromResponse st t1 data ids =
      (.error e, ⟨cache2, st.cacheTimestamp⟩) := by
  unfold refreshFromResponse
  rw [hpc]

/-- Claim C1 counterexample: with a cold cache and a 2xx upstream response
whose body is not valid JSON, `response.json()` raises
`json.JSONDecodeError`; that exception matches neither
`except httpx.HTTPStatusError` nor `except httpx.HTTPError` and escapes
`get_prices` (modelled as `Except.error`), so no mapping is returned —
refuting the claim that the operation is total for every malformed
response body. -/
theorem claim_c1_counterexample :
    (get_prices initState 100 100 (.resp 200 none) ["bitcoin"]).ret =
      .error .jsonDecodeError := rfl

/-- Claim C1 amended: for a network error, any non-2xx status, or a 2xx
response with a well-shaped JSON object body (each value an object),
`get_prices` raises nothing and returns a mapping covering exactly the
requested normalized identifiers, with identifiers it has no price for
(neither cached nor in the response) mapped to 0.0; a malformed or
ill-shaped body instead propagates an exception, as the counterexample
shows. -/
theorem claim_c1_total_on_safe (st : CGState) (t0 t1 : Int) (up : Upstream)
    (coin_ids : List String) (hs : safeUpstream up = true) :
    ∃ m, (get_prices st t0 t1 up coin_ids).ret = .ok m ∧
      keys m = (coin_ids.map normalize).dedup ∧
      (∀ cid ∈ (coin_ids.map normalize).dedup,
        alookup st.cache cid = none →
        (∀ status data, up = .resp status (some data) →
          codeHasUsd data cid = false) →
        alookup m cid = some (Json.num 0)) := by
  cases hc : coin_ids with
  | nil =>
    refine ⟨[], rfl, rfl, ?_⟩
    intro cid hcid
    simp at hcid
  | cons c cs =>
    by_cases hv : (is_cache_valid st t0 &&
        (((c :: cs).map normalize).dedup.all fun cid =>
          (alookup st.cache cid).isSome)) = true
    · rw [get_prices_fast st t0 t1 up (c :: cs) (by simp) hv]
      refine ⟨_, rfl, keys_map_mk _ _, ?_⟩
      intro cid hcid hn _
      exfalso
      rw [Bool.and_eq_true] at hv
      have hall := hv.2
      rw [List.all_eq_true] at hall
      have hcontra := hall cid hcid
      simp [hn] at hcontra
    · rw [Bool.not_eq_true] at hv
      rw [get_prices_fetch st t0 t1 up (c :: cs) (by simp) hv]
      cases up with
      | netError =>
        refine ⟨cachedFallback st (((c :: cs).map normalize).dedup), rfl,
          ?_, ?_⟩
        · unfold cachedFallback
          exact keys_map_mk _ _
        · intro cid hcid hn _
          unfold cachedFallback
          rw [alookup_map_mk, if_pos hcid, hn]
          rfl
      | resp status body =>
        by_cases h2 : 200 ≤ status ∧ status ≤ 299
        · simp only [safeUpstream] at hs
          rw [if_pos h2] at hs
          cases body with
          | none => simp at hs
          | some data =>
            cases hpc : processCoins data (((c :: cs).map normalize).dedup)
                [] st.cache with
            | mk r cache2 =>
              obtain ⟨mm, hmm⟩ := processCoins_ok_of_wellShaped data hs
                (((c :: cs).map normalize).dedup) [] st.cache
              rw [hpc] at hmm
              cases r with
              | error e => simp at hmm
              | ok prices =>
                have hpc2 : processCoins data
                    (((c :: cs).map normalize).dedup) [] st.cache =
                    (.ok prices, cache2) := hpc
                rw [tryFetch_success st t1 status data _ h2,
                    refreshFromResponse_ok st t1 data _ prices cache2 hpc2]
                refine ⟨prices, rfl, ?_, ?_⟩
                · have hk := processCoins_keys data
                    (((c :: cs).map normalize).dedup) [] st.cache prices
                    (by rw [hpc2]) (List.nodup_dedup _)
                    (fun id _ hmem => List.not_mem_nil id hmem)
                  simpa [keys] using hk
                · intro cid hcid hn hu
                  have hcu : codeHasUsd data cid = false := hu status data rfl
                  have hcp : codePrice data cid = none :=
                    codePrice_eq_none_of_codeHasUsd data cid hcu
                  have hval := processCoins_value data cid
                    (((c :: cs).map normalize).dedup) [] st.cache prices
                    (by rw [hpc2]) (List.nodup_dedup _) hcid
                  have hres := (hval.2 hcp).1
                  rw [hres, hn]
                  rfl
        · have hfail : failedUpstream (Upstream.resp status body) = true := by
            simp [failedUpstream, h2]
          rw [tryFetch_failed st t1 _ _ hfail]
          refine ⟨cachedFallback st (((c :: cs).map normalize).dedup), rfl,
            ?_, ?_⟩
          · unfold cachedFallback
            exact keys_map_mk _ _
          · intro cid hcid hn _
            unfold cachedFallback
            rw [alookup_map_mk, if_pos hcid, hn]
            rfl

/-- Witness for the amended C1: a cold-cache request for doge under a
network error returns the total mapping doge ↦ 0.0. -/
theorem claim_c1_total_on_safe_witness :
    (get_prices initState 100 100 .netError ["doge"]).ret =
      .ok [("doge", Json.num 0)] ∧
    alookup [("doge", Json.num 0)] "doge" = some (Json.num 0) := by
  obtain ⟨m, hm, hk, hz⟩ := claim_c1_total_on_safe initState 100 100
    .netError ["doge"] (by decide)
  have hr : (get_prices initState 100 100 .netError ["doge"]).ret =
      .ok [("doge", Json.num 0)] := rfl
  refine ⟨hr, ?_⟩
  rw [hr] at hm
  have hme : [("doge", Json.num 0)] = m := by
    injection hm
  have h3 := hz "doge" (by decide) rfl
    (fun status data h => Upstream.noConfusion h)
  rw [← hme] at h3
  exact h3

/-- Claim C2 counterexample: cache holds bitcoin ↦ 7; a 2xx response
carries an entry for bitcoin whose usd field is the string "high", not a
number.  The claim's fallback clause predicts the cached 7 in the result;
the code instead stores and returns the string, because the source checks
only key presence (`"usd" in data[coin_id]`), never numericness. -/
theorem claim_c2_counterexample :
    (get_prices ⟨[("bitcoin", Json.num 7)], 0⟩ 100 100
        (.resp 200 (some (.obj [("bitcoin", .obj [("usd", .str "high")])])))
        ["bitcoin"]).ret = .ok [("bitcoin", Json.str "high")] ∧
    (get_prices ⟨[("bitcoin", Json.num 7)], 0⟩ 100 100
        (.resp 200 (some (.obj [("bitcoin", .obj [("usd", .str "high")])])))
        ["bitcoin"]).ret ≠ .ok [("bitcoin", Json.num 7)] := by
  refine ⟨rfl, ?_⟩
  intro h
  have h2 : (Except.ok [("bitcoin", Json.str "high")] :
      Except PyExc (List (String × Json))) =
      .ok [("bitcoin", Json.num 7)] := h
  simp at h2

/-- Claim C2 amended: on a 2xx response with parseable body that the merge
loop processes without raising, for each requested normalized identifier:
if the response object contains that identifier with a usd field — of any
JSON type, numericness is not checked — that value is written into the
cache and into the returned mapping; otherwise the returned value is the
previously cached price (0.0 if never cached) and the cache entry is
untouched.  The refresh timestamp is then advanced to the current time
unconditionally, even when some requested identifiers were absent from
the response. -/
theorem claim_c2_merge_semantics (st : CGState) (t0 t1 : Int) (status : Nat)
    (data : Json) (coin_ids : List String) (m : List (String × Json))
    (h2 : 200 ≤ status ∧ status ≤ 299)
    (hne : coin_ids ≠ [])
    (hnf : (is_cache_valid st t0 &&
      ((coin_ids.map normalize).dedup.all fun cid =>
        (alookup st.cache cid).isSome)) = false)
    (hret : (get_prices st t0 t1 (.resp status (some data)) coin_ids).ret =
      .ok m) :
    (∀ cid ∈ (coin_ids.map normalize).dedup,
      (∀ p, codePrice data cid = some p →
        alookup m cid = some p ∧
        alookup (get_prices st t0 t1 (.resp status (some data))
          coin_ids).state.cache cid = some p) ∧
      (codePrice data cid = none →
        alookup m cid = some ((alookup st.cache cid).getD (Json.num 0)) ∧
        alookup (get_prices st t0 t1 (.resp status (some data))
          coin_ids).state.cache cid = alookup st.cache cid)) ∧
    (get_prices st t0 t1 (.resp status (some data))
      coin_ids).state.cacheTimestamp = t1 := by
  rw [get_prices_fetch st t0 t1 _ coin_ids hne hnf] at hret ⊢
  rw [tryFetch_success st t1 status data _ h2] at hret ⊢
  cases hpc : processCoins data ((coin_ids.map normalize).dedup)
      [] st.cache with
  | mk r cache2 =>
    cases r with
    | error e =>
      rw [refreshFromResponse_err st t1 data _ e cache2 hpc] at hret
      simp at hret
    | ok prices =>
      rw [refreshFromResponse_ok st t1 data _ prices cache2 hpc] at hret ⊢
      simp only [Except.ok.injEq] at hret
      subst hret
      refine ⟨?_, rfl⟩
      intro cid hcid
      have hval := processCoins_value data cid
        ((coin_ids.map normalize).dedup) [] st.cache prices
        (by rw [hpc]) (List.nodup_dedup _) hcid
      rw [hpc] at hval
      exact hval

/-- Witness for the amended C2: ethereum is cached at 10, the response
prices only bitcoin at 50000; the call returns bitcoin ↦ 50000 (written
to the cache) and ethereum ↦ 10 (stale fallback), and advances the
timestamp to 100 although ethereum was absent from the response. -/
theorem claim_c2_merge_semantics_witness :
    alookup [("bitcoin", Json.num 50000), ("ethereum", Json.num 10)]
      "bitcoin" = some (Json.num 50000) ∧
    (get_prices ⟨[("ethereum", Json.num 10)], 0⟩ 100 100
      (.resp 200 (some (.obj [("bitcoin", .obj [("usd", .num 50000)])])))
      ["bitcoin", "ethereum"]).state.cacheTimestamp = 100 := by
  have h := claim_c2_merge_semantics ⟨[("ethereum", Json.num 10)], 0⟩
    100 100 200 (.obj [("bitcoin", .obj [("usd", .num 50000)])])
    ["bitcoin", "ethereum"]
    [("bitcoin", Json.num 50000), ("ethereum", Json.num 10)]
    (by decide) (by decide) (by decide) rfl
  refine ⟨?_, h.2⟩
  exact ((h.1 "bitcoin" (by decide)).1 (Json.num 50000) rfl).1

end CryptoTrack
